import Mathlib

/-!
Verification development for the ClaudeCodeManager log-ingestion core
(`src-tauri/src/claude_data.rs`).  The Rust functions are shallowly embedded:
JSON values (`serde_json::Value`) become the inductive `Json`, a raw log line
becomes `Option Json` (`none` models a line that `serde_json::from_str`
rejects, e.g. a blank or malformed line), timestamps become `Nat`, and the
external timestamp parser (`str::parse::<DateTime<Utc>>`) and the clock
(`Utc::now`) are passed in as parameters `pt : String → Option Nat` and
`now : Nat`.  Filesystem-facing operations are embedded over explicit
filesystem values.
-/

/-- Embedding of `serde_json::Value`. -/
inductive Json where
  | null : Json
  | bool : Bool → Json
  | num : Int → Json
  | str : String → Json
  | arr : List Json → Json
  | obj : List (String × Json) → Json

/-- Embedding of `serde_json::Value::get(key)` (object member lookup). -/
def Json.getF : Json → String → Option Json
  | Json.obj fields, key => (fields.find? (fun p => p.1 == key)).map (fun p => p.2)
  | _, _ => none

/-- Embedding of `Value::as_str`. -/
def Json.asStr : Json → Option String
  | Json.str s => some s
  | _ => none

/-- Embedding of `Value::as_array`. -/
def Json.asArr : Json → Option (List Json)
  | Json.arr l => some l
  | _ => none

/-- Rust `char::is_control`: the Unicode Cc category,
U+0000..U+001F and U+007F..U+009F. -/
def rustIsControl (c : Char) : Bool :=
  c.toNat ≤ 0x1f || (0x7f ≤ c.toNat && c.toNat ≤ 0x9f)

/-- Rust `char::is_whitespace`: the Unicode White_Space property. -/
def rustIsWhitespace (c : Char) : Bool :=
  let n := c.toNat
  (0x9 ≤ n && n ≤ 0xd) || n == 0x20 || n == 0x85 || n == 0xa0 || n == 0x1680 ||
  (0x2000 ≤ n && n ≤ 0x200a) || n == 0x2028 || n == 0x2029 || n == 0x202f ||
  n == 0x205f || n == 0x3000

/-- Rust `str::trim` (both ends, Unicode White_Space), on character lists. -/
def rustTrim (l : List Char) : List Char :=
  ((l.dropWhile rustIsWhitespace).reverse.dropWhile rustIsWhitespace).reverse

/-- The cleaning pass of `truncate_content`:
`content.replace('\n', " ").replace('\r', "")` followed by
`.chars().filter(|c| !c.is_control() || c.is_whitespace())`. -/
def cleanChars (content : List Char) : List Char :=
  ((content.map (fun c => if c == '\n' then ' ' else c)).filter
      (fun c => c != '\r')).filter
    (fun c => !rustIsControl c || rustIsWhitespace c)

/-- Embedding of `truncated.rfind(' ')` followed by the byte slice
`&truncated[..last_space]`: the characters strictly before the last space,
or `none` when the list has no space. -/
def takeBeforeLastSpace (l : List Char) : Option (List Char) :=
  match l.reverse.dropWhile (fun c => c != ' ') with
  | [] => none
  | _ :: rest => some rest.reverse

/-- The effective character budget of `truncate_content`:
`if max_chars > 100 { 50 } else { max_chars.min(50) }`. -/
def adjustedMax (max_chars : Nat) : Nat :=
  if max_chars > 100 then 50 else min max_chars 50

/-- Embedding of `ClaudeDataManager::truncate_content` on character lists. -/
def truncateChars (content : List Char) (max_chars : Nat) : List Char :=
  let trimmed := rustTrim (cleanChars content)
  if trimmed.length ≤ adjustedMax max_chars then trimmed
  else
    let truncated := trimmed.take (adjustedMax max_chars)
    match takeBeforeLastSpace truncated with
    | some truncated_at_space => truncated_at_space ++ [ '.', '.', '.' ]
    | none => truncated ++ [ '.', '.', '.' ]

/-- Embedding of `ClaudeDataManager::truncate_content`. -/
def truncate_content (content : String) (max_chars : Nat) : String :=
  ⟨truncateChars content.data max_chars⟩

/-- Embedding of `ClaudeDataManager::extract_content_preview`. -/
def extract_content_preview (message : Json) : Option String :=
  match (message.getF "type").bind Json.asStr with
  | some "user" =>
      (((message.getF "message").bind (fun m => m.getF "content")).bind
          Json.asStr).map
        (fun content => truncate_content content 200)
  | some "assistant" =>
      match ((message.getF "message").bind (fun m => m.getF "content")).bind
          Json.asArr with
      | none => none
      | some content_blocks =>
          let text_parts := content_blocks.filterMap (fun block =>
            if (block.getF "type").bind Json.asStr == some "text" then
              (block.getF "text").bind Json.asStr
            else if (block.getF "type").bind Json.asStr == some "tool_use" then
              ((block.getF "name").bind Json.asStr).map
                (fun name => "[Using tool: " ++ name ++ "]")
            else none)
          if text_parts.isEmpty then none
          else some (truncate_content (String.intercalate " " text_parts) 200)
  | some "summary" =>
      ((message.getF "summary").bind Json.asStr).map
        (fun summary => truncate_content summary 200)
  | _ => none

/-- `models::ProcessingStatus`. -/
inductive ProcessingStatus where
  | processing
  | completed
  | stopped
  | error
deriving DecidableEq

/-- `models::ContentBlock`. -/
inductive ContentBlock where
  | text (text : String)
  | tool_use (id : String) (name : String) (input : Json)

/-- `models::MessageContent`. -/
inductive MessageContent where
  | user (role : String) (content : String)
  | assistant (role : String) (content : List ContentBlock)

/-- `models::ClaudeMessage`. -/
inductive ClaudeMessage where
  | user (uuid : String) (parent_uuid : Option String) (session_id : String)
      (timestamp : Nat) (content : MessageContent) (cwd : String)
      (git_branch : Option String) (processing_status : ProcessingStatus)
  | assistant (uuid : String) (parent_uuid : Option String)
      (session_id : String) (timestamp : Nat) (content : MessageContent)
      (cwd : String) (git_branch : Option String)
      (processing_status : ProcessingStatus) (stop_reason : Option String)
  | summary (summary : String) (leaf_uuid : String)

/-- The `processing_status` field of a decoded message, when it has one. -/
def ClaudeMessage.statusQ : ClaudeMessage → Option ProcessingStatus
  | ClaudeMessage.user _ _ _ _ _ _ _ ps => some ps
  | ClaudeMessage.assistant _ _ _ _ _ _ _ ps _ => some ps
  | ClaudeMessage.summary _ _ => none

/-- The `stop_reason` field of a decoded assistant message. -/
def ClaudeMessage.stopReasonQ : ClaudeMessage → Option String
  | ClaudeMessage.assistant _ _ _ _ _ _ _ _ sr => sr
  | _ => none

/-- Embedding of `ClaudeDataManager::parse_content_block`. -/
def parse_content_block (block : Json) : Option ContentBlock :=
  match (block.getF "type").bind Json.asStr with
  | some "text" =>
      some (ContentBlock.text (((block.getF "text").bind Json.asStr).getD ""))
  | some "tool_use" =>
      some (ContentBlock.tool_use
        (((block.getF "id").bind Json.asStr).getD "")
        (((block.getF "name").bind Json.asStr).getD "")
        ((block.getF "input").getD Json.null))
  | _ => none

/-- The `stop_reason` extraction of the assistant branch of
`parse_claude_message`:
`raw.get("message").and_then(|m| m.get("stop_reason")).and_then(|sr| sr.as_str())`. -/
def assistantStopReasonStr (raw : Json) : Option String :=
  ((raw.getF "message").bind (fun m => m.getF "stop_reason")).bind Json.asStr

/-- The `match` on `stop_reason` in the assistant branch of
`parse_claude_message` (`claude_data.rs`, lines 390-400). -/
def stopReasonStatus : Option String → ProcessingStatus
  | some reason =>
      match reason with
      | "end_turn" => ProcessingStatus.completed
      | "max_tokens" => ProcessingStatus.stopped
      | "stop_sequence" => ProcessingStatus.stopped
      | "tool_use" => ProcessingStatus.completed
      | _ => ProcessingStatus.error
  | none => ProcessingStatus.processing

/-- Embedding of `ClaudeDataManager::parse_claude_message`.  The Rust
function returns `Result<Option<ClaudeMessage>, _>`; every exit is `Ok`,
which the embedding mirrors with `Except`. -/
def parse_claude_message (pt : String → Option Nat) (now : Nat) (raw : Json)
    (session_id : String) : Except String (Option ClaudeMessage) :=
  let uuid := ((raw.getF "uuid").bind Json.asStr).getD ""
  let parent_uuid := (raw.getF "parentUuid").bind Json.asStr
  let timestamp_str := ((raw.getF "timestamp").bind Json.asStr).getD ""
  let timestamp := (pt timestamp_str).getD now
  let cwd := ((raw.getF "cwd").bind Json.asStr).getD ""
  let git_branch := (raw.getF "gitBranch").bind Json.asStr
  match (raw.getF "type").bind Json.asStr with
  | some "user" =>
      let content_text :=
        (((raw.getF "message").bind (fun m => m.getF "content")).bind
            Json.asStr).getD ""
      Except.ok (some (ClaudeMessage.user uuid parent_uuid session_id timestamp
        (MessageContent.user "user" content_text) cwd git_branch
        ProcessingStatus.completed))
  | some "assistant" =>
      let content_blocks :=
        ((((raw.getF "message").bind (fun m => m.getF "content")).bind
              Json.asArr).map
            (fun blocks => blocks.filterMap parse_content_block)).getD []
      let stop_reason := assistantStopReasonStr raw
      Except.ok (some (ClaudeMessage.assistant uuid parent_uuid session_id
        timestamp (MessageContent.assistant "assistant" content_blocks) cwd
        git_branch (stopReasonStatus stop_reason) stop_reason))
  | some "summary" =>
      Except.ok (some (ClaudeMessage.summary
        (((raw.getF "summary").bind Json.asStr).getD "")
        (((raw.getF "leafUuid").bind Json.asStr).getD "")))
  | _ => Except.ok none

/-- Embedding of `ClaudeDataManager::parse_messages_file`: lines that fail
JSON parsing (`none`) are skipped, decoded messages are collected in order,
and a decoding error would abort the whole file (the `?` operator). -/
def parse_messages_file (pt : String → Option Nat) (now : Nat)
    (lines : List (Option Json)) (session_id : String) :
    Except String (List ClaudeMessage) :=
  match lines with
  | [] => Except.ok []
  | line :: rest =>
      match line with
      | none => parse_messages_file pt now rest session_id
      | some raw =>
          match parse_claude_message pt now raw session_id with
          | Except.error e => Except.error e
          | Except.ok none => parse_messages_file pt now rest session_id
          | Except.ok (some m) =>
              (parse_messages_file pt now rest session_id).map
                (fun ms => m :: ms)

/-- The mutable fold state of `ClaudeDataManager::parse_session_file`
(`claude_data.rs`, lines 168-174). -/
structure SessionFold where
  message_count : Nat
  first_timestamp : Option Nat
  git_branch : Option String
  latest_content_preview : Option String
  latest_timestamp : Option Nat
  has_incomplete_sequence : Bool
  actual_project_path : Option String
deriving DecidableEq

/-- Initial fold state of `parse_session_file`. -/
def initSessionFold : SessionFold :=
  { message_count := 0, first_timestamp := none, git_branch := none,
    latest_content_preview := none, latest_timestamp := none,
    has_incomplete_sequence := false, actual_project_path := none }

/-- The timestamp branch of the `parse_session_file` loop
(`claude_data.rs`, lines 181-194). -/
def applyTimestamp (pt : String → Option Nat) (st : SessionFold)
    (message : Json) : SessionFold :=
  match (message.getF "timestamp").bind Json.asStr with
  | none => st
  | some timestamp_str =>
      match pt timestamp_str with
      | none => st
      | some timestamp =>
          let st1 := if st.first_timestamp.isNone then
            { st with first_timestamp := some timestamp } else st
          match st1.latest_timestamp with
          | none =>
              { st1 with
                latest_timestamp := some timestamp,
                latest_content_preview := extract_content_preview message }
          | some lt =>
              if timestamp > lt then
                { st1 with
                  latest_timestamp := some timestamp,
                  latest_content_preview := extract_content_preview message }
              else st1

/-- The `gitBranch` branch of the `parse_session_file` loop
(`claude_data.rs`, lines 196-202). -/
def applyGitBranch (st : SessionFold) (message : Json) : SessionFold :=
  if st.git_branch.isNone then
    match (message.getF "gitBranch").bind Json.asStr with
    | some branch =>
        if branch != "" then { st with git_branch := some branch } else st
    | none => st
  else st

/-- The `cwd` branch of the `parse_session_file` loop
(`claude_data.rs`, lines 204-211). -/
def applyCwd (st : SessionFold) (message : Json) : SessionFold :=
  if st.actual_project_path.isNone then
    match (message.getF "cwd").bind Json.asStr with
    | some cwd =>
        if cwd != "" then { st with actual_project_path := some cwd } else st
    | none => st
  else st

/-- The incomplete-sequence branch of the `parse_session_file` loop
(`claude_data.rs`, lines 213-223): `has_stop_reason` is
`message.get("message").and_then(|m| m.get("stop_reason")).is_some()`, so a
`stop_reason` that is present with value JSON `null` counts as present. -/
def applyIncomplete (st : SessionFold) (message : Json) : SessionFold :=
  if (message.getF "type").bind Json.asStr == some "assistant" then
    let has_stop_reason :=
      ((message.getF "message").bind (fun m => m.getF "stop_reason")).isSome
    if !has_stop_reason then { st with has_incomplete_sequence := true }
    else st
  else st

/-- One iteration of the `parse_session_file` loop: a line that fails JSON
parsing is skipped, otherwise `message_count` is incremented and the four
field updates run in source order. -/
def sessionStep (pt : String → Option Nat) (st : SessionFold)
    (line : Option Json) : SessionFold :=
  match line with
  | none => st
  | some message =>
      let st1 := { st with message_count := st.message_count + 1 }
      let st2 := applyTimestamp pt st1 message
      let st3 := applyGitBranch st2 message
      let st4 := applyCwd st3 message
      applyIncomplete st4 message

/-- The whole `parse_session_file` loop over the file's lines. -/
def sessionFoldAll (pt : String → Option Nat)
    (lines : List (Option Json)) : SessionFold :=
  lines.foldl (sessionStep pt) initSessionFold

/-- `models::ClaudeSession` (the `ide_info` field, fed by the independent
IDE-lock-file subsystem, is outside the scope of the claims and omitted). -/
structure ClaudeSessionL where
  session_id : String
  project_path : String
  timestamp : Nat
  message_count : Nat
  git_branch : Option String
  latest_content_preview : Option String
  is_processing : Bool
  file_modified_time : Nat
deriving DecidableEq

/-- Embedding of `ClaudeDataManager::parse_session_file`: fold the lines and
assemble the `ClaudeSession` (`claude_data.rs`, lines 227-242). -/
def parse_session_file (pt : String → Option Nat) (now : Nat)
    (lines : List (Option Json)) (session_id : String) (project_path : String)
    (file_modified_time : Nat) : ClaudeSessionL :=
  let st := sessionFoldAll pt lines
  { session_id := session_id,
    project_path := st.actual_project_path.getD project_path,
    timestamp := st.first_timestamp.getD now,
    message_count := st.message_count,
    git_branch := st.git_branch,
    latest_content_preview := st.latest_content_preview,
    is_processing := st.has_incomplete_sequence,
    file_modified_time := file_modified_time }

/-- One file of a project directory: the stem and extension of its name, its
lines (each `none` when JSON-unparseable) and its modification time. -/
structure FileEntry where
  stem : String
  ext : Option String
  lines : List (Option Json)
  mtime : Nat

/-- One directory under `~/.claude/projects`. -/
structure ProjectDir where
  name : String
  files : List FileEntry

/-- The `projects` tree, in `read_dir` iteration order. -/
abbrev ClaudeFS := List ProjectDir

/-- Rust `project_name.starts_with('-')` (a single-character test). -/
def startsWithDash (s : String) : Bool :=
  match s.data with
  | [] => false
  | c :: _ => c == '-'

/-- Embedding of `ClaudeDataManager::extract_cwd_from_session_file`: scan at
most the first 10 lines and return the first non-empty `cwd` string field of
a JSON-parseable line. -/
def extract_cwd_from_session_file (lines : List (Option Json)) :
    Option String :=
  (lines.take 10).findSome? (fun l => l.bind (fun message =>
    match (message.getF "cwd").bind Json.asStr with
    | some cwd => if cwd != "" then some cwd else none
    | none => none))

/-- Association-list lookup, standing in for `HashMap::get`. -/
def lookupA : List (String × String) → String → Option String
  | [], _ => none
  | (k1, v1) :: rest, k => if k1 = k then some v1 else lookupA rest k

/-- Association-list insert with overwrite, standing in for `HashMap::insert`. -/
def insertA (m : List (String × String)) (k v : String) :
    List (String × String) :=
  match m with
  | [] => [(k, v)]
  | (k1, v1) :: rest =>
      if k1 = k then (k, v) :: rest else (k1, v1) :: insertA rest k v

/-- The first pass of `ClaudeDataManager::get_all_sessions`
(`claude_data.rs`, lines 80-110): for each directory whose name starts with
a dash, record the `cwd` extracted from the first `.jsonl` file that yields
one. -/
def buildProjectPathMap (fs : ClaudeFS) : List (String × String) :=
  fs.foldl (fun m d =>
    if startsWithDash d.name then
      match (d.files.filter (fun f => f.ext == some "jsonl")).findSome?
          (fun f => extract_cwd_from_session_file f.lines) with
      | some actual_path => insertA m d.name actual_path
      | none => m
    else m) []

/-- The second pass of `get_all_sessions` for one directory
(`claude_data.rs`, lines 113-151): every `.jsonl` file becomes a session,
whose fallback project path is the mapped path when the directory name is
encoded (or the raw directory name when no mapping exists). -/
def sessionsOfDir (pt : String → Option Nat) (now : Nat)
    (map : List (String × String)) (d : ProjectDir) : List ClaudeSessionL :=
  (d.files.filter (fun f => f.ext == some "jsonl")).map (fun f =>
    let effective_project_name :=
      if startsWithDash d.name then (lookupA map d.name).getD d.name
      else d.name
    parse_session_file pt now f.lines f.stem effective_project_name f.mtime)

/-- Stable descending insertion by `timestamp`: the model of
`sessions.sort_by(|a, b| b.timestamp.cmp(&a.timestamp))` (stable sort). -/
def insertDesc (s : ClaudeSessionL) : List ClaudeSessionL →
    List ClaudeSessionL
  | [] => [s]
  | t :: ts =>
      if s.timestamp > t.timestamp then s :: t :: ts else t :: insertDesc s ts

/-- Stable sort, descending by `timestamp`. -/
def sortByTsDesc (l : List ClaudeSessionL) : List ClaudeSessionL :=
  l.foldl (fun acc s => insertDesc s acc) []

/-- Embedding of `ClaudeDataManager::get_all_sessions`. -/
def get_all_sessions (pt : String → Option Nat) (now : Nat)
    (fs : ClaudeFS) : List ClaudeSessionL :=
  let map := buildProjectPathMap fs
  sortByTsDesc (fs.flatMap (sessionsOfDir pt now map))

/-- The error outcomes of the embedded filesystem operations. -/
inductive ClaudeError where
  | accessDenied
  | io
deriving DecidableEq

/-- A flat filesystem for `read_claude_file` / `write_claude_file`: a path is
its list of named components. -/
structure SimpleFS where
  files : List (List String × String)
  dirs : List (List String)

/-- Assoc lookup on path-keyed files. -/
def lookupF : List (List String × String) → List String → Option String
  | [], _ => none
  | (k1, v1) :: rest, k => if k1 = k then some v1 else lookupF rest k

/-- Assoc insert with overwrite on path-keyed files. -/
def insertF (m : List (List String × String)) (k : List String) (v : String) :
    List (List String × String) :=
  match m with
  | [] => [(k, v)]
  | (k1, v1) :: rest =>
      if k1 = k then (k, v) :: rest else (k1, v1) :: insertF rest k v

/-- The containment loop shared by `read_claude_file` and
`write_claude_file` (`claude_data.rs`, lines 1034-1043), on the reversed
component list: the Rust loop tests `current.file_name()` (the last
component) and steps to `current.parent()` while one exists, so it examines
every named component from the final one upwards. -/
def claudeLoopRev : List String → Bool
  | [] => false
  | c :: rest => if c == ".claude" then true else claudeLoopRev rest

/-- The containment check on a path given by its named components. -/
def is_in_claude_dir (components : List String) : Bool :=
  claudeLoopRev components.reverse

/-- `fs::create_dir_all(parent)`: all non-empty prefixes of the parent path
are added to the directory set. -/
def addParentDirs (dirs : List (List String)) (path : List String) :
    List (List String) :=
  let parent := path.dropLast
  dirs ++ ((List.range parent.length).map (fun k => parent.take (k + 1)))

/-- Embedding of `ClaudeDataManager::read_claude_file`. -/
def read_claude_file (path : List String) (fs : SimpleFS) :
    Except ClaudeError String :=
  if is_in_claude_dir path then
    match lookupF fs.files path with
    | some content => Except.ok content
    | none => Except.error ClaudeError.io
  else Except.error ClaudeError.accessDenied

/-- Embedding of `ClaudeDataManager::write_claude_file`: the result pairs the
optional error with the (possibly unchanged) filesystem. -/
def write_claude_file (path : List String) (content : String)
    (fs : SimpleFS) : Option ClaudeError × SimpleFS :=
  if is_in_claude_dir path then
    let fs1 : SimpleFS := { fs with dirs := addParentDirs fs.dirs path }
    (none, { fs1 with files := insertF fs1.files path content })
  else (some ClaudeError.accessDenied, fs)

/-- The error outcomes of `get_settings`. -/
inductive SettingsError where
  | notFound
  | decodeErr (e : String)
deriving DecidableEq

/-- Embedding of `ClaudeDataManager::get_settings` (`claude_data.rs`, lines
648-658), polymorphic in the settings type: `file` is the settings file's
content when it exists, and `dec` is the strict `serde_json` decoder. -/
def get_settings {α : Type} (dec : String → Except String α)
    (file : Option String) : Except SettingsError α :=
  match file with
  | none => Except.error SettingsError.notFound
  | some content =>
      match dec content with
      | Except.error e => Except.error (SettingsError.decodeErr e)
      | Except.ok settings => Except.ok settings

/-- The key of the `file_timestamps` table: directory name and file stem. -/
abbrev FileKey := String × String

/-- Assoc lookup on the timestamp table. -/
def lookupT : List (FileKey × Nat) → FileKey → Option Nat
  | [], _ => none
  | (k1, v1) :: rest, k => if k1 = k then some v1 else lookupT rest k

/-- Assoc insert with overwrite on the timestamp table. -/
def insertT (m : List (FileKey × Nat)) (k : FileKey) (v : Nat) :
    List (FileKey × Nat) :=
  match m with
  | [] => [(k, v)]
  | (k1, v1) :: rest =>
      if k1 = k then (k, v) :: rest else (k1, v1) :: insertT rest k v

/-- The `.jsonl` files visited by the nested loops of
`get_changed_sessions`, flattened in iteration order and paired with their
directory name. -/
def jsonlFiles (fs : ClaudeFS) : List (String × FileEntry) :=
  fs.flatMap (fun d =>
    (d.files.filter (fun f => f.ext == some "jsonl")).map (fun f => (d.name, f)))

/-- The loop body of `ClaudeDataManager::get_changed_sessions`
(`claude_data.rs`, lines 757-792): a file is re-parsed exactly when its
current mtime is strictly newer than the stored one, or no value is stored. -/
def changedLoop (pt : String → Option Nat) (now : Nat)
    (files : List (String × FileEntry)) (table : List (FileKey × Nat)) :
    List ClaudeSessionL × List (FileKey × Nat) :=
  match files with
  | [] => ([], table)
  | (dname, f) :: rest =>
      let key : FileKey := (dname, f.stem)
      let current_time := f.mtime
      let doParse :=
        match lookupT table key with
        | none => true
        | some t => current_time > t
      if doParse then
        let session := parse_session_file pt now f.lines f.stem dname f.mtime
        let res := changedLoop pt now rest (insertT table key current_time)
        (session :: res.1, res.2)
      else changedLoop pt now rest table

/-- Embedding of `ClaudeDataManager::get_changed_sessions`: returns the
sorted changed sessions and the updated timestamp table. -/
def get_changed_sessions (pt : String → Option Nat) (now : Nat)
    (fs : ClaudeFS) (table : List (FileKey × Nat)) :
    List ClaudeSessionL × List (FileKey × Nat) :=
  let res := changedLoop pt now (jsonlFiles fs) table
  (sortByTsDesc res.1, res.2)

/-!
Helper definitions and lemmas: per-line projections of the session fold and
characterizations of the loop body, used to settle the claims about
`parse_session_file`.
-/

def ofirst {α : Type} (a b : Option α) : Option α :=
  match a with
  | some x => some x
  | none => b

theorem ofirst_none_left {α : Type} (b : Option α) : ofirst none b = b := rfl

theorem ofirst_some {α : Type} (x : α) (b : Option α) :
    ofirst (some x) b = some x := rfl

theorem ofirst_none_right {α : Type} (a : Option α) : ofirst a none = a := by
  cases a <;> rfl

def omaxStep (acc : Option Nat) (t : Option Nat) : Option Nat :=
  match t with
  | none => acc
  | some tv =>
      match acc with
      | none => some tv
      | some m => some (max m tv)

theorem omaxStep_none_right (acc : Option Nat) : omaxStep acc none = acc := rfl

def pvStep (latest : Option Nat) (oldpv : Option String) (tq : Option Nat)
    (newpv : Option String) : Option String :=
  match tq with
  | none => oldpv
  | some t =>
      match latest with
      | none => newpv
      | some m => if t > m then newpv else oldpv

theorem pvStep_none (latest : Option Nat) (oldpv : Option String)
    (newpv : Option String) : pvStep latest oldpv none newpv = oldpv := rfl

def tsOfJ (pt : String → Option Nat) (j : Json) : Option Nat :=
  ((j.getF "timestamp").bind Json.asStr).bind pt

theorem applyTimestamp_eq (pt : String → Option Nat) (st : SessionFold) (j : Json) :
    applyTimestamp pt st j =
      { st with
        first_timestamp := ofirst st.first_timestamp (tsOfJ pt j),
        latest_timestamp := omaxStep st.latest_timestamp (tsOfJ pt j),
        latest_content_preview :=
          pvStep st.latest_timestamp st.latest_content_preview (tsOfJ pt j)
            (extract_content_preview j) } := by
  unfold applyTimestamp tsOfJ
  cases h1 : (j.getF "timestamp").bind Json.asStr with
  | none => simp [ofirst_none_right, omaxStep_none_right, pvStep_none]
  | some tstr =>
    cases h2 : pt tstr with
    | none => simp [h2, ofirst_none_right, omaxStep_none_right, pvStep_none]
    | some t =>
      cases h3 : st.first_timestamp with
      | none =>
        cases h4 : st.latest_timestamp with
        | none => simp [ofirst, omaxStep, pvStep, h2, h3, h4]
        | some m =>
          by_cases h5 : t > m
          · simp [ofirst, omaxStep, pvStep, h2, h3, h4, h5,
              Nat.max_eq_right (Nat.le_of_lt h5)]
          · simp [ofirst, omaxStep, pvStep, h2, h3, h4, h5,
              Nat.max_eq_left (Nat.le_of_not_lt h5)]
      | some ft =>
        cases h4 : st.latest_timestamp with
        | none => simp [ofirst, omaxStep, pvStep, h2, h3, h4]
        | some m =>
          by_cases h5 : t > m
          · simp [ofirst, omaxStep, pvStep, h2, h3, h4, h5,
              Nat.max_eq_right (Nat.le_of_lt h5)]
          · simp [ofirst, omaxStep, pvStep, h2, h3, h4, h5,
              Nat.max_eq_left (Nat.le_of_not_lt h5)]
            rw [← h3, ← h4]

def branchOfJ (j : Json) : Option String :=
  match (j.getF "gitBranch").bind Json.asStr with
  | some branch => if branch != "" then some branch else none
  | none => none

def cwdOfJ (j : Json) : Option String :=
  match (j.getF "cwd").bind Json.asStr with
  | some cwd => if cwd != "" then some cwd else none
  | none => none

def amsrJ (j : Json) : Bool :=
  ((j.getF "type").bind Json.asStr == some "assistant") &&
    ((j.getF "message").bind (fun m => m.getF "stop_reason")).isNone

theorem applyGitBranch_eq (st : SessionFold) (j : Json) :
    applyGitBranch st j =
      { st with git_branch := ofirst st.git_branch (branchOfJ j) } := by
  rcases st with ⟨mc, ftm, gb, pv, ltm, fl, app⟩
  unfold applyGitBranch branchOfJ
  cases gb with
  | some b => simp [ofirst]
  | none =>
    cases h2 : (j.getF "gitBranch").bind Json.asStr with
    | none => simp [ofirst]
    | some branch =>
      by_cases h3 : branch = ""
      · simp [ofirst, h3]
      · simp [ofirst, h3]

theorem applyCwd_eq (st : SessionFold) (j : Json) :
    applyCwd st j =
      { st with actual_project_path :=
          ofirst st.actual_project_path (cwdOfJ j) } := by
  rcases st with ⟨mc, ftm, gb, pv, ltm, fl, app⟩
  unfold applyCwd cwdOfJ
  cases app with
  | some c => simp [ofirst]
  | none =>
    cases h2 : (j.getF "cwd").bind Json.asStr with
    | none => simp [ofirst]
    | some cwd =>
      by_cases h3 : cwd = ""
      · simp [ofirst, h3]
      · simp [ofirst, h3]

theorem applyIncomplete_eq (st : SessionFold) (j : Json) :
    applyIncomplete st j =
      { st with has_incomplete_sequence :=
          st.has_incomplete_sequence || amsrJ j } := by
  rcases st with ⟨mc, ftm, gb, pv, ltm, fl, app⟩
  unfold applyIncomplete amsrJ
  cases h1 : ((j.getF "type").bind Json.asStr == some "assistant") with
  | false => simp [h1]
  | true =>
    cases h2 : (j.getF "message").bind (fun m => m.getF "stop_reason") with
    | none => simp [h1, h2]
    | some v => simp [h1, h2]

theorem sessionStep_none (pt : String → Option Nat) (st : SessionFold) :
    sessionStep pt st none = st := rfl

theorem sessionStep_some (pt : String → Option Nat) (st : SessionFold)
    (j : Json) :
    sessionStep pt st (some j) =
      { st with
        message_count := st.message_count + 1,
        first_timestamp := ofirst st.first_timestamp (tsOfJ pt j),
        latest_timestamp := omaxStep st.latest_timestamp (tsOfJ pt j),
        latest_content_preview :=
          pvStep st.latest_timestamp st.latest_content_preview (tsOfJ pt j)
            (extract_content_preview j),
        git_branch := ofirst st.git_branch (branchOfJ j),
        actual_project_path := ofirst st.actual_project_path (cwdOfJ j),
        has_incomplete_sequence := st.has_incomplete_sequence || amsrJ j } := by
  show applyIncomplete (applyCwd (applyGitBranch
    (applyTimestamp pt { st with message_count := st.message_count + 1 } j) j) j) j = _
  rw [applyTimestamp_eq, applyGitBranch_eq, applyCwd_eq, applyIncomplete_eq]

def lineTs (pt : String → Option Nat) (line : Option Json) : Option Nat :=
  line.bind (tsOfJ pt)

def lineBranch (line : Option Json) : Option String :=
  line.bind branchOfJ

def lineCwd (line : Option Json) : Option String :=
  line.bind cwdOfJ

def lineAmsr (line : Option Json) : Bool :=
  match line with
  | none => false
  | some j => amsrJ j

def linePv (line : Option Json) : Option String :=
  line.bind extract_content_preview

theorem ofirst_assoc {α : Type} (a b c : Option α) :
    ofirst (ofirst a b) c = ofirst a (ofirst b c) := by
  cases a <;> cases b <;> rfl

theorem findSome?_cons_eq {α β : Type} (f : α → Option β) (a : α)
    (as : List α) : (a :: as).findSome? f = ofirst (f a) (as.findSome? f) := by
  cases h : f a <;> simp [List.findSome?_cons, h, ofirst]

theorem foldCount (pt : String → Option Nat) (lines : List (Option Json)) :
    ∀ st : SessionFold, (lines.foldl (sessionStep pt) st).message_count =
      st.message_count + lines.countP (fun l => l.isSome) := by
  induction lines with
  | nil => intro st; simp
  | cons l ls ih =>
    intro st
    rw [List.foldl_cons, ih, List.countP_cons]
    cases l with
    | none => simp [sessionStep_none]
    | some j => simp [sessionStep_some]; omega

theorem foldFlag (pt : String → Option Nat) (lines : List (Option Json)) :
    ∀ st : SessionFold, (lines.foldl (sessionStep pt) st).has_incomplete_sequence =
      (st.has_incomplete_sequence || lines.any lineAmsr) := by
  induction lines with
  | nil => intro st; simp
  | cons l ls ih =>
    intro st
    rw [List.foldl_cons, ih, List.any_cons]
    cases l with
    | none => simp [sessionStep_none, lineAmsr]
    | some j => simp [sessionStep_some, lineAmsr, Bool.or_assoc]

theorem foldFirst (pt : String → Option Nat) (lines : List (Option Json)) :
    ∀ st : SessionFold, (lines.foldl (sessionStep pt) st).first_timestamp =
      ofirst st.first_timestamp (lines.findSome? (lineTs pt)) := by
  induction lines with
  | nil => intro st; simp [ofirst_none_right]
  | cons l ls ih =>
    intro st
    rw [List.foldl_cons, ih, findSome?_cons_eq, ← ofirst_assoc]
    cases l with
    | none => simp [sessionStep_none, lineTs, ofirst_none_right]
    | some j => simp [sessionStep_some, lineTs]

theorem foldBranch (pt : String → Option Nat) (lines : List (Option Json)) :
    ∀ st : SessionFold, (lines.foldl (sessionStep pt) st).git_branch =
      ofirst st.git_branch (lines.findSome? lineBranch) := by
  induction lines with
  | nil => intro st; simp [ofirst_none_right]
  | cons l ls ih =>
    intro st
    rw [List.foldl_cons, ih, findSome?_cons_eq, ← ofirst_assoc]
    cases l with
    | none => simp [sessionStep_none, lineBranch, ofirst_none_right]
    | some j => simp [sessionStep_some, lineBranch]

theorem foldCwd (pt : String → Option Nat) (lines : List (Option Json)) :
    ∀ st : SessionFold, (lines.foldl (sessionStep pt) st).actual_project_path =
      ofirst st.actual_project_path (lines.findSome? lineCwd) := by
  induction lines with
  | nil => intro st; simp [ofirst_none_right]
  | cons l ls ih =>
    intro st
    rw [List.foldl_cons, ih, findSome?_cons_eq, ← ofirst_assoc]
    cases l with
    | none => simp [sessionStep_none, lineCwd, ofirst_none_right]
    | some j => simp [sessionStep_some, lineCwd]

def tsMax (pt : String → Option Nat) (lines : List (Option Json)) :
    Option Nat :=
  lines.foldl (fun acc l => omaxStep acc (lineTs pt l)) none

def pvMax (pt : String → Option Nat) (lines : List (Option Json)) :
    Option String :=
  match tsMax pt lines with
  | none => none
  | some m =>
      match lines.find? (fun l => lineTs pt l == some m) with
      | some l => linePv l
      | none => none

theorem omaxStep_some_left (a : Nat) (t : Option Nat) :
    ∃ m, omaxStep (some a) t = some m ∧ a ≤ m := by
  cases t with
  | none => exact ⟨a, rfl, Nat.le_refl a⟩
  | some tv => exact ⟨max a tv, rfl, Nat.le_max_left a tv⟩

theorem omaxStep_some_right (acc : Option Nat) (t : Nat) :
    ∃ m, omaxStep acc (some t) = some m ∧ t ≤ m := by
  cases acc with
  | none => exact ⟨t, rfl, Nat.le_refl t⟩
  | some a => exact ⟨max a t, rfl, Nat.le_max_right a t⟩

theorem omaxFold_some (pt : String → Option Nat) (lines : List (Option Json)) :
    ∀ acc a, acc = some a →
      ∃ m, lines.foldl (fun acc l => omaxStep acc (lineTs pt l)) acc = some m ∧
        a ≤ m := by
  induction lines with
  | nil => intro acc a h; exact ⟨a, by simp [h], Nat.le_refl a⟩
  | cons l ls ih =>
    intro acc a h
    subst h
    obtain ⟨a1, ha1, hle1⟩ := omaxStep_some_left a (lineTs pt l)
    obtain ⟨m, hm, hle2⟩ := ih (omaxStep (some a) (lineTs pt l)) a1 ha1
    exact ⟨m, by simpa using hm, Nat.le_trans hle1 hle2⟩

theorem omaxFold_none (pt : String → Option Nat) (lines : List (Option Json)) :
    ∀ acc, lines.foldl (fun acc l => omaxStep acc (lineTs pt l)) acc = none →
      acc = none ∧ ∀ l1, l1 ∈ lines → lineTs pt l1 = none := by
  induction lines with
  | nil => intro acc h; simp at h; exact ⟨h, by simp⟩
  | cons l ls ih =>
    intro acc h
    rw [List.foldl_cons] at h
    obtain ⟨hstep, htail⟩ := ih (omaxStep acc (lineTs pt l)) h
    cases hts : lineTs pt l with
    | some tv =>
      rw [hts] at hstep
      cases acc <;> simp [omaxStep] at hstep
    | none =>
      rw [hts, omaxStep_none_right] at hstep
      refine ⟨hstep, ?_⟩
      intro l1 hl1
      rcases List.mem_cons.mp hl1 with h1 | h1
      · rw [h1]; exact hts
      · exact htail l1 h1

theorem omaxFold_bound (pt : String → Option Nat) (lines : List (Option Json)) :
    ∀ acc m, lines.foldl (fun acc l => omaxStep acc (lineTs pt l)) acc = some m →
      (∀ a, acc = some a → a ≤ m) ∧
      (∀ l1, l1 ∈ lines → ∀ t, lineTs pt l1 = some t → t ≤ m) := by
  induction lines with
  | nil =>
    intro acc m h
    simp at h
    exact ⟨fun a ha => by rw [ha] at h; exact Nat.le_of_eq (Option.some.inj h),
      by simp⟩
  | cons l ls ih =>
    intro acc m h
    rw [List.foldl_cons] at h
    obtain ⟨hacc, htail⟩ := ih (omaxStep acc (lineTs pt l)) m h
    constructor
    · intro a ha
      subst ha
      obtain ⟨a1, ha1, hle1⟩ := omaxStep_some_left a (lineTs pt l)
      exact Nat.le_trans hle1 (hacc a1 ha1)
    · intro l1 hl1 t ht
      rcases List.mem_cons.mp hl1 with h1 | h1
      · subst h1
        rw [ht] at hacc
        obtain ⟨a1, ha1, hle1⟩ := omaxStep_some_right acc t
        exact Nat.le_trans hle1 (hacc a1 ha1)
      · exact htail l1 h1 t ht

theorem omaxFold_attained (pt : String → Option Nat)
    (lines : List (Option Json)) :
    ∀ acc m, lines.foldl (fun acc l => omaxStep acc (lineTs pt l)) acc = some m →
      (∃ l1, l1 ∈ lines ∧ lineTs pt l1 = some m) ∨ acc = some m := by
  induction lines with
  | nil => intro acc m h; simp at h; exact Or.inr h
  | cons l ls ih =>
    intro acc m h
    rw [List.foldl_cons] at h
    rcases ih (omaxStep acc (lineTs pt l)) m h with htail | hstep
    · obtain ⟨l1, hl1, ht⟩ := htail
      exact Or.inl ⟨l1, List.mem_cons_of_mem l hl1, ht⟩
    · cases hts : lineTs pt l with
      | none =>
        rw [hts, omaxStep_none_right] at hstep
        exact Or.inr hstep
      | some t =>
        rw [hts] at hstep
        cases hacc : acc with
        | none =>
          rw [hacc] at hstep
          simp [omaxStep] at hstep
          exact Or.inl ⟨l, List.mem_cons_self l ls, by rw [hts, hstep]⟩
        | some a =>
          rw [hacc] at hstep
          simp [omaxStep] at hstep
          rcases Nat.le_total t a with hle | hle
          · rw [Nat.max_eq_left hle] at hstep
            exact Or.inr (congrArg some hstep)
          · rw [Nat.max_eq_right hle] at hstep
            exact Or.inl ⟨l, List.mem_cons_self l ls,
              hts.trans (congrArg some hstep)⟩

theorem find?_append_eq {α : Type} (p : α → Bool) (l1 l2 : List α) :
    (l1 ++ l2).find? p = ofirst (l1.find? p) (l2.find? p) := by
  induction l1 with
  | nil => simp [ofirst]
  | cons a as ih =>
    cases h : p a with
    | true => simp [List.find?_cons, h, ofirst]
    | false => simp [List.find?_cons, h, ih]

theorem tsMax_append (pt : String → Option Nat) (l : List (Option Json))
    (a : Option Json) :
    tsMax pt (l ++ [a]) = omaxStep (tsMax pt l) (lineTs pt a) := by
  simp [tsMax, List.foldl_append]

theorem stepLatest (pt : String → Option Nat) (st : SessionFold)
    (line : Option Json) :
    (sessionStep pt st line).latest_timestamp =
      omaxStep st.latest_timestamp (lineTs pt line) := by
  cases line with
  | none => rw [sessionStep_none]; rfl
  | some j => rw [sessionStep_some]; rfl

theorem stepPv (pt : String → Option Nat) (st : SessionFold)
    (line : Option Json) :
    (sessionStep pt st line).latest_content_preview =
      pvStep st.latest_timestamp st.latest_content_preview (lineTs pt line)
        (linePv line) := by
  cases line with
  | none => rw [sessionStep_none]; rfl
  | some j => rw [sessionStep_some]; rfl

theorem pvStep_snoc (pt : String → Option Nat) (l : List (Option Json))
    (a : Option Json) :
    pvStep (tsMax pt l) (pvMax pt l) (lineTs pt a) (linePv a) =
      pvMax pt (l ++ [a]) := by
  cases hta : lineTs pt a with
  | none =>
    have h2 : tsMax pt (l ++ [a]) = tsMax pt l := by
      rw [tsMax_append, hta, omaxStep_none_right]
    cases htm : tsMax pt l with
    | none => simp only [pvStep_none, pvMax, h2, htm]
    | some m =>
      have hfa : ([a].find? (fun x => lineTs pt x == some m)) = none := by
        simp [List.find?_cons, hta]
      simp only [pvStep_none, pvMax, h2, htm, find?_append_eq, hfa,
        ofirst_none_right]
  | some t =>
    cases htm : tsMax pt l with
    | none =>
      have hall := omaxFold_none pt l none (by simpa [tsMax] using htm)
      have h2 : tsMax pt (l ++ [a]) = some t := by
        rw [tsMax_append, hta, htm]; rfl
      have hfl : (l.find? (fun x => lineTs pt x == some t)) = none := by
        rw [List.find?_eq_none]
        intro x hx
        simp [hall.2 x hx]
      have hfa : ([a].find? (fun x => lineTs pt x == some t)) = some a := by
        simp [List.find?_cons, hta]
      simp only [pvStep, pvMax, htm, hta, h2, find?_append_eq, hfl, hfa,
        ofirst_none_left]
    | some m =>
      have hbound := omaxFold_bound pt l none m (by simpa [tsMax] using htm)
      by_cases hgt : t > m
      · have h2 : tsMax pt (l ++ [a]) = some t := by
          rw [tsMax_append, hta, htm]
          simp [omaxStep, Nat.max_eq_right (Nat.le_of_lt hgt)]
        have hfl : (l.find? (fun x => lineTs pt x == some t)) = none := by
          rw [List.find?_eq_none]
          intro x hx
          cases hx2 : lineTs pt x with
          | none => simp
          | some t2 =>
            have hb := hbound.2 x hx t2 hx2
            simp only [beq_iff_eq, Option.some.injEq]
            intro hEq
            omega
        have hfa : ([a].find? (fun x => lineTs pt x == some t)) = some a := by
          simp [List.find?_cons, hta]
        simp only [pvStep, pvMax, htm, hta, h2, find?_append_eq, hfl, hfa,
          ofirst_none_left, if_pos hgt]
      · have h2 : tsMax pt (l ++ [a]) = some m := by
          rw [tsMax_append, hta, htm]
          simp [omaxStep, Nat.max_eq_left (Nat.le_of_not_lt hgt)]
        rcases omaxFold_attained pt l none m (by simpa [tsMax] using htm) with
          hatt | hacc
        · obtain ⟨x, hx, hxt⟩ := hatt
          have hfl : (l.find? (fun y => lineTs pt y == some m)).isSome := by
            rw [List.find?_isSome]
            exact ⟨x, hx, by simp [hxt]⟩
          obtain ⟨y, hy⟩ := Option.isSome_iff_exists.mp hfl
          simp only [pvStep, pvMax, htm, hta, h2, find?_append_eq, hy,
            ofirst_some, if_neg hgt]
        · exact absurd hacc (by simp)

theorem foldLatest (pt : String → Option Nat) (lines : List (Option Json)) :
    (sessionFoldAll pt lines).latest_timestamp = tsMax pt lines ∧
      (sessionFoldAll pt lines).latest_content_preview = pvMax pt lines := by
  induction lines using List.reverseRecOn with
  | nil => exact ⟨rfl, rfl⟩
  | append_singleton l a ih =>
    have hf : sessionFoldAll pt (l ++ [a]) =
        sessionStep pt (sessionFoldAll pt l) a := by
      simp [sessionFoldAll, List.foldl_append]
    constructor
    · rw [hf, stepLatest, ih.1, ← tsMax_append]
    · rw [hf, stepPv, ih.1, ih.2, pvStep_snoc]

theorem dropWhile_head_false {α : Type} (p : α → Bool) :
    ∀ (l : List α) (c : α) (rest : List α),
      l.dropWhile p = c :: rest → p c = false := by
  intro l
  induction l with
  | nil => intro c rest h; simp [List.dropWhile] at h
  | cons a as ih =>
    intro c rest h
    rw [List.dropWhile_cons] at h
    by_cases hp : p a = true
    · rw [if_pos hp] at h; exact ih c rest h
    · rw [if_neg hp] at h
      obtain ⟨h1, h2⟩ := List.cons.inj h
      rw [← h1]
      exact Bool.eq_false_iff.mpr hp

theorem takeBeforeLastSpace_split (l : List Char) (pre : List Char)
    (h : takeBeforeLastSpace l = some pre) :
    ∃ suffix, l = pre ++ ' ' :: suffix := by
  unfold takeBeforeLastSpace at h
  cases hd : l.reverse.dropWhile (fun c => c != ' ') with
  | nil => rw [hd] at h; exact absurd h (by simp)
  | cons c rest =>
    rw [hd] at h
    have hc : (c != ' ') = false := dropWhile_head_false _ l.reverse c rest hd
    have hc2 : c = ' ' := by simpa using hc
    have hsplit : l.reverse.takeWhile (fun c => c != ' ') ++ (c :: rest) =
        l.reverse := by
      rw [← hd]; exact List.takeWhile_append_dropWhile _ l.reverse
    have hpre : pre = rest.reverse := by
      have h5 := Option.some.inj h
      rw [← h5]
    have h4 : (l.reverse.takeWhile (fun c => c != ' ') ++ (c :: rest)).reverse =
        l := by rw [hsplit, List.reverse_reverse]
    generalize htw : List.takeWhile (fun c => c != ' ') l.reverse = tw at h4
    refine ⟨tw.reverse, ?_⟩
    rw [← h4, List.reverse_append, List.reverse_cons, hpre, hc2]
    simp

theorem takeBeforeLastSpace_take (l : List Char) (pre : List Char)
    (h : takeBeforeLastSpace l = some pre) :
    pre.length ≤ l.length ∧ pre = l.take pre.length := by
  obtain ⟨suffix, hs⟩ := takeBeforeLastSpace_split l pre h
  constructor
  · rw [hs]; simp
  · rw [hs, List.take_left]

theorem truncateChars_spec (content : List Char) (b : Nat) :
    (truncateChars content b).length ≤ adjustedMax b + 3 ∧
    ((rustTrim (cleanChars content)).length ≤ adjustedMax b →
      truncateChars content b = rustTrim (cleanChars content)) ∧
    (adjustedMax b < (rustTrim (cleanChars content)).length →
      ∃ k, k ≤ adjustedMax b ∧
        truncateChars content b =
          (rustTrim (cleanChars content)).take k ++ [ '.', '.', '.' ]) := by
  unfold truncateChars
  by_cases h : (rustTrim (cleanChars content)).length ≤ adjustedMax b
  · rw [if_pos h]
    exact ⟨Nat.le_trans h (Nat.le_add_right _ 3), fun _ => rfl,
      fun hlt => absurd hlt (by omega)⟩
  · rw [if_neg h]
    have hlt : adjustedMax b < (rustTrim (cleanChars content)).length :=
      Nat.lt_of_not_le h
    have hwin : ((rustTrim (cleanChars content)).take (adjustedMax b)).length =
        adjustedMax b := by
      rw [List.length_take]
      omega
    cases hsp : takeBeforeLastSpace
        ((rustTrim (cleanChars content)).take (adjustedMax b)) with
    | none =>
      simp only [hsp]
      refine ⟨?_, fun habs => absurd habs (by omega),
        fun _ => ⟨adjustedMax b, Nat.le_refl _, rfl⟩⟩
      simp only [List.length_append, List.length_cons, List.length_nil]
      omega
    | some pre =>
      simp only [hsp]
      obtain ⟨hple, hptake⟩ := takeBeforeLastSpace_take _ pre hsp
      rw [hwin] at hple
      refine ⟨?_, fun habs => absurd habs (by omega), fun _ => ?_⟩
      · simp only [List.length_append, List.length_cons, List.length_nil]
        omega
      · refine ⟨pre.length, hple, ?_⟩
        have hmin : min pre.length (adjustedMax b) = pre.length := by omega
        have hpre2 : pre = (rustTrim (cleanChars content)).take pre.length :=
          calc pre
              = ((rustTrim (cleanChars content)).take (adjustedMax b)).take
                  pre.length := hptake
            _ = (rustTrim (cleanChars content)).take
                  (min pre.length (adjustedMax b)) := List.take_take _ _ _
            _ = (rustTrim (cleanChars content)).take pre.length := by
                  rw [hmin]
        rw [← hpre2]

/-!
Claim-side definitions: predicates and comparison functions stated in the
spec's own terms, to be compared with the embedded code.
-/

/-- A timestamp parser rejecting every string, used for concrete instances. -/
def ptNone : String → Option Nat := fun _ => none

/-- The code's session-level trigger (`claude_data.rs`, lines 213-223) as a
per-line predicate: a JSON-parsed record of type `assistant` whose
`message.stop_reason` lookup yields nothing — the `message` object or its
`stop_reason` key is absent; a key present with value JSON `null` counts as
present. -/
def assistantMissingStopReason (line : Option Json) : Bool :=
  match line with
  | none => false
  | some j => amsrJ j

/-- Modelled from the claim: an assistant record whose `stop_reason` is
`None`, where the claim reads absence OR explicit JSON `null` as `None`. -/
def claimAssistantStopNone (line : Option Json) : Bool :=
  match line with
  | none => false
  | some j =>
      ((j.getF "type").bind Json.asStr == some "assistant") &&
        (match (j.getF "message").bind (fun m => m.getF "stop_reason") with
         | none => true
         | some Json.null => true
         | some _ => false)

/-- Modelled from the claim (C5): the stop-reason table read over raw JSON
values: `end_turn`/`tool_use` → Completed, `max_tokens`/`stop_sequence` →
Stopped, any other non-null value → Error, absent or null → Processing. -/
def claimStatusTable : Option Json → ProcessingStatus
  | none => ProcessingStatus.processing
  | some Json.null => ProcessingStatus.processing
  | some (Json.str "end_turn") => ProcessingStatus.completed
  | some (Json.str "tool_use") => ProcessingStatus.completed
  | some (Json.str "max_tokens") => ProcessingStatus.stopped
  | some (Json.str "stop_sequence") => ProcessingStatus.stopped
  | some _ => ProcessingStatus.error

/-- The raw (not `as_str`-filtered) `message.stop_reason` JSON value of a
record. -/
def assistantStopReasonJson (raw : Json) : Option Json :=
  (raw.getF "message").bind (fun m => m.getF "stop_reason")

/-- The `processing_status` carried by a `parse_claude_message` result, when
the result is a decoded message that has one. -/
def statusOfResult (r : Except String (Option ClaudeMessage)) :
    Option ProcessingStatus :=
  match r with
  | Except.ok (some m) => m.statusQ
  | _ => none

/-- Whether the record's `type` field is one of the three recognized values. -/
def recognizedType (raw : Json) : Bool :=
  match (raw.getF "type").bind Json.asStr with
  | some "user" => true
  | some "assistant" => true
  | some "summary" => true
  | _ => false

/-- Modelled from the claim (C3): the naive decode of an encoded project
directory name — every hyphen replaced by the path separator. -/
def naiveDecode (s : String) : String :=
  ⟨s.data.map (fun c => if c == '-' then '/' else c)⟩

/-- The per-session project-path rule actually implemented: the session's own
first non-empty `cwd` (scanned over all its lines) wins; otherwise the
directory-level mapping for dash-encoded names; otherwise the raw directory
name. -/
def resolveSpecPath (fs : ClaudeFS) (d : ProjectDir) (f : FileEntry) :
    String :=
  match f.lines.findSome? lineCwd with
  | some own => own
  | none =>
      if startsWithDash d.name then
        (lookupA (buildProjectPathMap fs) d.name).getD d.name
      else d.name

/-!
Second block of helper lemmas: stable-sort membership, association-table
lemmas, and the length lemma for `parse_messages_file`.
-/

theorem mem_insertDesc (s x : ClaudeSessionL) :
    ∀ l : List ClaudeSessionL, x ∈ insertDesc s l ↔ x = s ∨ x ∈ l := by
  intro l
  induction l with
  | nil => simp [insertDesc]
  | cons t ts ih =>
    unfold insertDesc
    by_cases h : s.timestamp > t.timestamp
    · rw [if_pos h]
      simp
    · rw [if_neg h]
      rw [List.mem_cons, ih, List.mem_cons]
      tauto

theorem mem_sortFold (x : ClaudeSessionL) :
    ∀ (l acc : List ClaudeSessionL),
      x ∈ l.foldl (fun a s => insertDesc s a) acc ↔ x ∈ acc ∨ x ∈ l := by
  intro l
  induction l with
  | nil => intro acc; simp
  | cons s ls ih =>
    intro acc
    rw [List.foldl_cons, ih, mem_insertDesc, List.mem_cons]
    tauto

theorem mem_sortByTsDesc (x : ClaudeSessionL) (l : List ClaudeSessionL) :
    x ∈ sortByTsDesc l ↔ x ∈ l := by
  unfold sortByTsDesc
  rw [mem_sortFold]
  simp

theorem sortByTsDesc_nil : sortByTsDesc [] = [] := rfl

theorem claudeLoopRev_any : ∀ l : List String,
    claudeLoopRev l = l.any (fun c => c == ".claude") := by
  intro l
  induction l with
  | nil => rfl
  | cons c rest ih =>
    unfold claudeLoopRev
    by_cases h : c == ".claude"
    · simp [h]
    · simp only [List.any_cons]
      rw [if_neg h, ih]
      simp [h]

theorem lookupF_insertF_self : ∀ (m : List (List String × String))
    (k : List String) (v : String), lookupF (insertF m k v) k = some v := by
  intro m
  induction m with
  | nil => intro k v; simp [insertF, lookupF]
  | cons p rest ih =>
    intro k v
    obtain ⟨k1, v1⟩ := p
    unfold insertF
    by_cases h : k1 = k
    · rw [if_pos h]
      simp [lookupF]
    · rw [if_neg h]
      unfold lookupF
      rw [if_neg h]
      exact ih k v

theorem lookupT_insertT_self : ∀ (m : List (FileKey × Nat)) (k : FileKey)
    (v : Nat), lookupT (insertT m k v) k = some v := by
  intro m
  induction m with
  | nil => intro k v; simp [insertT, lookupT]
  | cons p rest ih =>
    intro k v
    obtain ⟨k1, v1⟩ := p
    unfold insertT
    by_cases h : k1 = k
    · rw [if_pos h]
      simp [lookupT]
    · rw [if_neg h]
      unfold lookupT
      rw [if_neg h]
      exact ih k v

theorem lookupT_insertT_ne : ∀ (m : List (FileKey × Nat)) (k k2 : FileKey)
    (v : Nat), k2 ≠ k → lookupT (insertT m k v) k2 = lookupT m k2 := by
  intro m
  induction m with
  | nil =>
    intro k k2 v hne
    unfold insertT lookupT
    rw [if_neg (fun hc => hne hc.symm)]
    rfl
  | cons p rest ih =>
    intro k k2 v hne
    obtain ⟨k1, v1⟩ := p
    unfold insertT
    by_cases h : k1 = k
    · rw [if_pos h]
      unfold lookupT
      rw [if_neg (fun hc => hne hc.symm), h, if_neg (fun hc => hne hc.symm)]
    · rw [if_neg h]
      unfold lookupT
      by_cases h4 : k1 = k2
      · rw [if_pos h4, if_pos h4]
      · rw [if_neg h4, if_neg h4]
        exact ih k k2 v hne

theorem parse_cm_ok (pt : String → Option Nat) (now : Nat) (raw : Json)
    (sid : String) : ∃ o, parse_claude_message pt now raw sid = Except.ok o := by
  unfold parse_claude_message
  split <;> exact ⟨_, rfl⟩

theorem parse_cm_unrecognized (pt : String → Option Nat) (now : Nat)
    (raw : Json) (sid : String) (h : recognizedType raw = false) :
    parse_claude_message pt now raw sid = Except.ok none := by
  unfold recognizedType at h
  unfold parse_claude_message
  split
  · rename_i heq
    rw [heq] at h
    exact absurd h (by simp)
  · rename_i heq
    rw [heq] at h
    exact absurd h (by simp)
  · rename_i heq
    rw [heq] at h
    exact absurd h (by simp)
  · rfl

theorem pm_skip (pt : String → Option Nat) (now : Nat) (sid : String)
    (line : Option Json) (rest : List (Option Json))
    (h : line = none ∨ ∃ j, line = some j ∧ recognizedType j = false) :
    parse_messages_file pt now (line :: rest) sid =
      parse_messages_file pt now rest sid := by
  rcases h with h | ⟨j, hj, hr⟩
  · rw [h]
    rfl
  · rw [hj]
    show (match parse_claude_message pt now j sid with
      | Except.error e => Except.error e
      | Except.ok none => parse_messages_file pt now rest sid
      | Except.ok (some m) =>
          (parse_messages_file pt now rest sid).map (fun ms => m :: ms)) = _
    rw [parse_cm_unrecognized pt now j sid hr]

theorem pmLength (pt : String → Option Nat) (now : Nat) (sid : String) :
    ∀ (lines : List (Option Json)) (msgs : List ClaudeMessage),
      parse_messages_file pt now lines sid = Except.ok msgs →
      msgs.length ≤ lines.countP (fun l => l.isSome) := by
  intro lines
  induction lines with
  | nil =>
    intro msgs h
    have h2 : ([] : List ClaudeMessage) = msgs := Except.ok.inj h
    rw [← h2]
    simp
  | cons line rest ih =>
    intro msgs h
    rw [List.countP_cons]
    cases line with
    | none =>
      have h2 : parse_messages_file pt now rest sid = Except.ok msgs := h
      have h3 := ih msgs h2
      simp only [Option.isSome_none]
      omega
    | some raw =>
      have hstep : parse_messages_file pt now (some raw :: rest) sid =
          (match parse_claude_message pt now raw sid with
            | Except.error e => Except.error e
            | Except.ok none => parse_messages_file pt now rest sid
            | Except.ok (some m) =>
                (parse_messages_file pt now rest sid).map
                  (fun ms => m :: ms)) := rfl
      rw [hstep] at h
      cases hp : parse_claude_message pt now raw sid with
      | error e => rw [hp] at h; exact absurd h (by simp)
      | ok o =>
        rw [hp] at h
        cases o with
        | none =>
          have h3 := ih msgs h
          simp only [Option.isSome_some, eq_self_iff_true, if_true]
          omega
        | some m =>
          cases hrest : parse_messages_file pt now rest sid with
          | error e =>
            rw [hrest] at h
            exact absurd h (by simp [Except.map])
          | ok ms =>
            rw [hrest] at h
            have hm : (m :: ms : List ClaudeMessage) = msgs := Except.ok.inj h
            have h3 := ih ms hrest
            rw [← hm]
            simp only [Option.isSome_some, List.length_cons,
              eq_self_iff_true, if_true]
            omega

/-!
Concrete records used by witnesses and counterexamples.
-/

/-- A user record with string content `hi`. -/
def userHiRec : Json :=
  Json.obj [("type", Json.str "user"),
    ("message", Json.obj [("content", Json.str "hi")])]

/-- An assistant record whose `message.stop_reason` is present with value
JSON `null` (the shape the external tool writes for an in-flight turn). -/
def asstNullRec : Json :=
  Json.obj [("type", Json.str "assistant"),
    ("message", Json.obj [("stop_reason", Json.null)])]

/-- An assistant record whose `message.stop_reason` is the JSON number 42 —
a non-null, non-string stop reason. -/
def raw42Rec : Json :=
  Json.obj [("type", Json.str "assistant"),
    ("message", Json.obj [("stop_reason", Json.num 42)])]

/-- A record with an unrecognized `type`. -/
def unkRec : Json := Json.obj [("type", Json.str "weird")]

/-- Two user records sharing the parseable timestamp string `t`, with
different contents. -/
def tieRec1 : Json :=
  Json.obj [("type", Json.str "user"), ("timestamp", Json.str "t"),
    ("message", Json.obj [("content", Json.str "aaa")])]

/-- Companion record to `tieRec1` with content `bbb`. -/
def tieRec2 : Json :=
  Json.obj [("type", Json.str "user"), ("timestamp", Json.str "t"),
    ("message", Json.obj [("content", Json.str "bbb")])]

/-- A timestamp parser that parses exactly the string `t`, to the value 5. -/
def ptTie : String → Option Nat := fun s => if s = "t" then some 5 else none

/-!
The claims.
-/

/-- C1 (amended): for every log file, `Session.is_processing` is true exactly
when some JSON-parseable record has type `assistant` and its
`message.stop_reason` KEY is absent (the `message` object missing, or the
`stop_reason` key missing).  A `stop_reason` present with value JSON `null`
counts as present, so it does NOT mark the session as processing. -/
theorem session_is_processing (pt : String → Option Nat) (now : Nat)
    (lines : List (Option Json)) (sid pp : String) (mt : Nat) :
    (parse_session_file pt now lines sid pp mt).is_processing =
      lines.any assistantMissingStopReason := by
  show (sessionFoldAll pt lines).has_incomplete_sequence = _
  unfold sessionFoldAll
  rw [foldFlag]
  have hfn : assistantMissingStopReason = lineAmsr := rfl
  rw [hfn]
  simp [initSessionFold]

/-- C1 counterexample: the claim's concrete scenario — a file with a user
record and an assistant record carrying `stop_reason = null` — yields
`is_processing = false`, though the claim (which counts JSON `null` as
`None`) requires `true`. -/
theorem session_is_processing_null_counter :
    claimAssistantStopNone (some asstNullRec) = true ∧
    (parse_session_file ptNone 0 [some userHiRec, some asstNullRec]
      "s" "p" 0).is_processing = false := by
  constructor
  · rfl
  · decide

/-- C2 (amended): with the effective budget `adjustedMax b` (50 when
`b > 100`, otherwise `min b 50`), the truncated output has at most
`adjustedMax b + 3` characters (the ellipsis marker `...` is three
characters); the cleaned, trimmed input is returned as-is when it has at
most `adjustedMax b` characters; otherwise the output is a prefix of the
cleaned trimmed input of length at most `adjustedMax b` with `...`
appended. -/
theorem truncate_content_budget (s : String) (b : Nat) :
    (truncate_content s b).data.length ≤ adjustedMax b + 3 ∧
    ((rustTrim (cleanChars s.data)).length ≤ adjustedMax b →
      (truncate_content s b).data = rustTrim (cleanChars s.data)) ∧
    (adjustedMax b < (rustTrim (cleanChars s.data)).length →
      ∃ k, k ≤ adjustedMax b ∧
        (truncate_content s b).data =
          (rustTrim (cleanChars s.data)).take k ++ [ '.', '.', '.' ]) := by
  have h := truncateChars_spec s.data b
  exact ⟨h.1, h.2.1, h.2.2⟩

/-- C2 witness: on `ab cdef` with budget 4 the window holds a space, and the
output is a backtracked prefix with the marker appended. -/
theorem truncate_content_budget_witness :
    ∃ k, k ≤ adjustedMax 4 ∧
      (truncate_content "ab cdef" 4).data =
        (rustTrim (cleanChars "ab cdef".data)).take k ++ [ '.', '.', '.' ] :=
  (truncate_content_budget "ab cdef" 4).2.2 (by decide)

/-- C2 counterexample: with budget 4 and input `abcde` the output is
`abcd...` — 7 characters, exceeding the claimed bound of `b + 1 = 5`. -/
theorem truncate_content_budget_counter :
    ¬ ((truncate_content "abcde" 4).data.length ≤ 4 + 1) := by decide

/-- C4 (amended): `first_timestamp` is the timestamp of the first record in
file order with a parseable timestamp; `latest_content_preview` is the
preview of the FIRST record attaining the maximum parseable timestamp —
ties between equal timestamps are broken in favour of the record occurring
EARLIER in the file (the comparison is strict); `git_branch` is the first
non-empty branch value, never overwritten. -/
theorem session_fold_tiebreaks (pt : String → Option Nat) (now : Nat)
    (lines : List (Option Json)) (sid pp : String) (mt : Nat) :
    (sessionFoldAll pt lines).first_timestamp =
      lines.findSome? (lineTs pt) ∧
    (parse_session_file pt now lines sid pp mt).latest_content_preview =
      pvMax pt lines ∧
    (parse_session_file pt now lines sid pp mt).git_branch =
      lines.findSome? lineBranch := by
  refine ⟨?_, ?_, ?_⟩
  · unfold sessionFoldAll
    rw [foldFirst]
    rfl
  · show (sessionFoldAll pt lines).latest_content_preview = _
    exact (foldLatest pt lines).2
  · show (sessionFoldAll pt lines).git_branch = _
    unfold sessionFoldAll
    rw [foldBranch]
    rfl

/-- C4 counterexample: two records with equal parseable timestamps and
different contents — the fold keeps the EARLIER record's preview (`aaa`),
though the claim requires the later record (`bbb`) to win the tie. -/
theorem session_fold_tiebreaks_counter :
    (parse_session_file ptTie 0 [some tieRec1, some tieRec2]
      "s" "p" 0).latest_content_preview = some "aaa" ∧
    extract_content_preview tieRec2 = some "bbb" ∧
    some "aaa" ≠ some "bbb" := by
  refine ⟨by decide, by decide, by decide⟩

/-- C5 (amended): for an assistant record, the derived `processing_status`
is exactly the table function of the STRING value of the nested message's
`stop_reason`: `end_turn`/`tool_use` → Completed, `max_tokens` /
`stop_sequence` → Stopped, any other string → Error, and an absent, null,
or non-string `stop_reason` → Processing (the extraction goes through
`as_str`). -/
theorem assistant_status_table (pt : String → Option Nat) (now : Nat)
    (raw : Json) (sid : String)
    (h : (raw.getF "type").bind Json.asStr = some "assistant") :
    ∃ m, parse_claude_message pt now raw sid = Except.ok (some m) ∧
      m.statusQ = some (stopReasonStatus (assistantStopReasonStr raw)) ∧
      m.stopReasonQ = assistantStopReasonStr raw := by
  unfold parse_claude_message
  rw [h]
  exact ⟨_, rfl, rfl, rfl⟩

/-- C5 witness: on a concrete assistant record with a null stop reason the
status is the table value (Processing). -/
theorem assistant_status_table_witness :
    ∃ m, parse_claude_message ptNone 0 asstNullRec "s" = Except.ok (some m) ∧
      m.statusQ = some (stopReasonStatus (assistantStopReasonStr asstNullRec)) ∧
      m.stopReasonQ = assistantStopReasonStr asstNullRec :=
  assistant_status_table ptNone 0 asstNullRec "s" rfl

/-- C5 counterexample: an assistant record whose `stop_reason` is the JSON
number 42 is a non-null value, mapped to Error by the claim's table but to
Processing by the code (which reads the field through `as_str`). -/
theorem assistant_status_table_counter :
    statusOfResult (parse_claude_message ptNone 0 raw42Rec "s") =
      some ProcessingStatus.processing ∧
    claimStatusTable (assistantStopReasonJson raw42Rec) =
      ProcessingStatus.error ∧
    ProcessingStatus.processing ≠ ProcessingStatus.error := by
  refine ⟨rfl, rfl, by decide⟩

/-- C7: `get_settings` fails with NotFound when the settings file is absent,
propagates the strict decoder's failure as a Decode error (never a default
value), and succeeds exactly when the file exists and decodes. -/
theorem get_settings_spec :
    ∀ (α : Type) (dec : String → Except String α) (file : Option String),
      (file = none →
        get_settings dec file = Except.error SettingsError.notFound) ∧
      (∀ c e, file = some c → dec c = Except.error e →
        get_settings dec file = Except.error (SettingsError.decodeErr e)) ∧
      (∀ c a, file = some c → dec c = Except.ok a →
        get_settings dec file = Except.ok a) ∧
      ((∃ a, get_settings dec file = Except.ok a) ↔
        (∃ c a, file = some c ∧ dec c = Except.ok a)) := by
  intro α dec file
  refine ⟨?_, ?_, ?_, ?_⟩
  · intro h
    rw [h]
    rfl
  · intro c e hf hd
    rw [hf]
    unfold get_settings
    simp only [hd]
  · intro c a hf hd
    rw [hf]
    unfold get_settings
    simp only [hd]
  · constructor
    · rintro ⟨a, ha⟩
      cases file with
      | none => exact absurd ha (by simp [get_settings])
      | some c =>
        cases hd : dec c with
        | error e =>
          unfold get_settings at ha
          simp only [hd] at ha
          exact absurd ha (by simp)
        | ok a2 =>
          exact ⟨c, a2, rfl, hd⟩
    · rintro ⟨c, a, hf, hd⟩
      refine ⟨a, ?_⟩
      rw [hf]
      unfold get_settings
      simp only [hd]

/-- C7 witness: with a decoder that always succeeds, a missing file still
gives NotFound, and an existing file gives the decoded value. -/
theorem get_settings_spec_witness :
    get_settings (fun _ => Except.ok 1) (none : Option String) =
      Except.error SettingsError.notFound ∧
    get_settings (fun _ => Except.ok 1) (some "x") = Except.ok 1 :=
  ⟨(get_settings_spec Nat (fun _ => Except.ok 1) none).1 rfl,
    (get_settings_spec Nat (fun _ => Except.ok 1) (some "x")).2.2.1 "x" 1
      rfl rfl⟩

/-- C9: single-line decoding is total — `parse_claude_message` always
returns `Ok`; a record with an absent or unrecognized `type` decodes to
`Ok(None)`; and a line that fails JSON parsing or decodes to no message is
skipped without affecting the decoding of the remaining lines. -/
theorem decode_line_total :
    (∀ (pt : String → Option Nat) (now : Nat) (raw : Json) (sid : String),
      ∃ o, parse_claude_message pt now raw sid = Except.ok o) ∧
    (∀ (pt : String → Option Nat) (now : Nat) (raw : Json) (sid : String),
      recognizedType raw = false →
      parse_claude_message pt now raw sid = Except.ok none) ∧
    (∀ (pt : String → Option Nat) (now : Nat) (sid : String)
      (line : Option Json) (rest : List (Option Json)),
      (line = none ∨ ∃ j, line = some j ∧ recognizedType j = false) →
      parse_messages_file pt now (line :: rest) sid =
        parse_messages_file pt now rest sid) :=
  ⟨parse_cm_ok, parse_cm_unrecognized, pm_skip⟩

/-- C9 witness: a line with an unrecognized `type` is skipped and the file
decodes as if the line were absent. -/
theorem decode_line_total_witness :
    parse_messages_file ptNone 0 [some unkRec, some userHiRec] "s" =
      parse_messages_file ptNone 0 [some userHiRec] "s" :=
  decode_line_total.2.2 ptNone 0 "s" (some unkRec) [some userHiRec]
    (Or.inr ⟨unkRec, rfl, rfl⟩)

/-- C10: `Session.message_count` counts exactly the JSON-parseable lines —
summary and unknown-type records included — so it bounds from above the
message-list length of `parse_messages_file`, strictly on a file whose only
line has an unrecognized type. -/
theorem message_count_vs_messages :
    (∀ (pt : String → Option Nat) (now : Nat) (lines : List (Option Json))
      (sid pp : String) (mt : Nat),
      (parse_session_file pt now lines sid pp mt).message_count =
        lines.countP (fun l => l.isSome)) ∧
    (∀ (pt : String → Option Nat) (now : Nat) (lines : List (Option Json))
      (sid : String) (msgs : List ClaudeMessage),
      parse_messages_file pt now lines sid = Except.ok msgs →
      msgs.length ≤ lines.countP (fun l => l.isSome)) ∧
    (parse_messages_file ptNone 0 [some unkRec] "s" = Except.ok [] ∧
      (parse_session_file ptNone 0 [some unkRec] "s" "p" 0).message_count =
        1) := by
  refine ⟨?_, ?_, ?_, ?_⟩
  · intro pt now lines sid pp mt
    show (sessionFoldAll pt lines).message_count = _
    unfold sessionFoldAll
    rw [foldCount]
    simp [initSessionFold]
  · intro pt now lines sid msgs h
    exact pmLength pt now sid lines msgs h
  · rfl
  · rfl

/-- C10 witness: a one-line file with a user record decodes to one message,
bounded by the one JSON-parseable line. -/
theorem message_count_vs_messages_witness :
    [ClaudeMessage.user "" none "s" 0 (MessageContent.user "user" "hi") ""
      none ProcessingStatus.completed].length ≤
      List.countP (fun l => l.isSome) [some userHiRec] :=
  message_count_vs_messages.2.1 ptNone 0 [some userHiRec] "s" _ rfl

/-- C6 (amended): `read_claude_file` / `write_claude_file` are permitted
exactly when SOME component of the path — the final component included, not
only proper ancestor directories — is named `.claude`; otherwise both fail
with AccessDenied and the filesystem is unchanged.  On permitted paths
`write_claude_file` creates every missing parent directory and writes the
file. -/
theorem claude_file_gate (path : List String) (content : String)
    (fs : SimpleFS) :
    (is_in_claude_dir path = path.any (fun c => c == ".claude")) ∧
    (is_in_claude_dir path = false →
      read_claude_file path fs = Except.error ClaudeError.accessDenied ∧
      write_claude_file path content fs =
        (some ClaudeError.accessDenied, fs)) ∧
    (is_in_claude_dir path = true →
      (write_claude_file path content fs).1 = none ∧
      lookupF (write_claude_file path content fs).2.files path =
        some content ∧
      ∀ k, k < path.dropLast.length →
        path.dropLast.take (k + 1) ∈
          (write_claude_file path content fs).2.dirs) := by
  refine ⟨?_, ?_, ?_⟩
  · unfold is_in_claude_dir
    rw [claudeLoopRev_any]
    exact List.any_reverse
  · intro h
    constructor
    · unfold read_claude_file
      rw [if_neg (by simp [h])]
    · unfold write_claude_file
      rw [if_neg (by simp [h])]
  · intro h
    refine ⟨?_, ?_, ?_⟩
    · unfold write_claude_file
      rw [if_pos h]
    · unfold write_claude_file
      rw [if_pos h]
      exact lookupF_insertF_self _ path content
    · intro k hk
      unfold write_claude_file
      rw [if_pos h]
      show path.dropLast.take (k + 1) ∈ addParentDirs fs.dirs path
      unfold addParentDirs
      refine List.mem_append_right _ ?_
      exact List.mem_map.mpr ⟨k, List.mem_range.mpr hk, rfl⟩

/-- C6 witness: a path under a `.claude` directory is permitted; the write
succeeds, records the content, and creates the parent directory chain. -/
theorem claude_file_gate_witness :
    (write_claude_file ["home", ".claude", "f"] "x" ⟨[], []⟩).1 = none ∧
    lookupF (write_claude_file ["home", ".claude", "f"] "x"
      ⟨[], []⟩).2.files ["home", ".claude", "f"] = some "x" ∧
    ∀ k, k < (["home", ".claude", "f"].dropLast).length →
      (["home", ".claude", "f"].dropLast).take (k + 1) ∈
        (write_claude_file ["home", ".claude", "f"] "x" ⟨[], []⟩).2.dirs :=
  (claude_file_gate ["home", ".claude", "f"] "x" ⟨[], []⟩).2.2 (by decide)

/-- C6 counterexample: the path `tmp/.claude` — a FILE named `.claude` with
no `.claude`-named ancestor directory — is permitted by the code (the write
succeeds), though the claim requires AccessDenied for every path without a
`.claude` ancestor directory component. -/
theorem claude_file_gate_counter :
    (write_claude_file ["tmp", ".claude"] "x" ⟨[], []⟩).1 = none ∧
    ¬ (".claude" ∈ (["tmp", ".claude"].dropLast)) := by
  refine ⟨by decide, by decide⟩

/-- C3 (amended): every session produced by `get_all_sessions` comes from a
`.jsonl` file, and its resolved project path follows `resolveSpecPath`: the
session's OWN first non-empty `cwd` (scanned over all its lines) wins when
present; otherwise, for a dash-encoded directory name, the directory-level
mapping extracted from the first 10 lines of the first `.jsonl` file that
yields one; otherwise the raw directory name VERBATIM — no hyphen-to-path-
separator decoding takes place. -/
theorem project_path_resolution (pt : String → Option Nat) (now : Nat)
    (fs : ClaudeFS) (s : ClaudeSessionL)
    (h : s ∈ get_all_sessions pt now fs) :
    ∃ d, d ∈ fs ∧ ∃ f, f ∈ d.files ∧ f.ext = some "jsonl" ∧
      s.session_id = f.stem ∧ s.project_path = resolveSpecPath fs d f := by
  unfold get_all_sessions at h
  rw [mem_sortByTsDesc] at h
  obtain ⟨d, hd, hs⟩ := List.mem_flatMap.mp h
  unfold sessionsOfDir at hs
  obtain ⟨f, hf, heq⟩ := List.mem_map.mp hs
  obtain ⟨hfmem, hext⟩ := List.mem_filter.mp hf
  refine ⟨d, hd, f, hfmem, by simpa using hext, ?_, ?_⟩
  · rw [← heq]
    rfl
  · rw [← heq]
    have hcwd : (sessionFoldAll pt f.lines).actual_project_path =
        f.lines.findSome? lineCwd := by
      show (f.lines.foldl (sessionStep pt) initSessionFold).actual_project_path
        = _
      rw [foldCwd]
      rfl
    show ((sessionFoldAll pt f.lines).actual_project_path).getD _ =
      resolveSpecPath fs d f
    rw [hcwd]
    unfold resolveSpecPath
    cases f.lines.findSome? lineCwd with
    | some own => rfl
    | none => rfl

/-- A dash-encoded project directory with one empty `.jsonl` session file. -/
def fsDash : ClaudeFS := [⟨"-a-b", [⟨"sess", some "jsonl", [], 0⟩]⟩]

/-- C3 witness: on a concrete dash-encoded directory with no `cwd` anywhere,
the resolved path follows `resolveSpecPath`. -/
theorem project_path_resolution_witness :
    ∃ d, d ∈ fsDash ∧ ∃ f, f ∈ d.files ∧ f.ext = some "jsonl" ∧
      (⟨"sess", "-a-b", 0, 0, none, none, false, 0⟩ :
        ClaudeSessionL).session_id = f.stem ∧
      (⟨"sess", "-a-b", 0, 0, none, none, false, 0⟩ :
        ClaudeSessionL).project_path = resolveSpecPath fsDash d f :=
  project_path_resolution ptNone 0 fsDash
    ⟨"sess", "-a-b", 0, 0, none, none, false, 0⟩ (by decide)

/-- C3 counterexample: a directory named `-a-b` whose session file exposes
no `cwd` resolves to the encoded name `-a-b` verbatim, not to the naive
hyphen decode `/a/b` required by the claim. -/
theorem project_path_resolution_counter :
    (get_all_sessions ptNone 0 fsDash).map (fun s => s.project_path) =
      ["-a-b"] ∧
    naiveDecode "-a-b" = "/a/b" ∧
    ("-a-b" : String) ≠ "/a/b" := by
  refine ⟨by decide, by decide, by decide⟩

theorem changedLoop_mono (pt : String → Option Nat) (now : Nat) :
    ∀ (files : List (String × FileEntry)) (table : List (FileKey × Nat))
      (k : FileKey) (v : Nat), lookupT table k = some v →
      ∃ v2, lookupT (changedLoop pt now files table).2 k = some v2 ∧
        v ≤ v2 := by
  intro files
  induction files with
  | nil => intro table k v h; exact ⟨v, h, Nat.le_refl v⟩
  | cons df rest ih =>
    intro table k v h
    obtain ⟨dname, f⟩ := df
    show ∃ v2, lookupT (changedLoop pt now ((dname, f) :: rest) table).2 k =
      some v2 ∧ v ≤ v2
    cases hl : lookupT table (dname, f.stem) with
    | none =>
      have hstep : changedLoop pt now ((dname, f) :: rest) table =
          ((parse_session_file pt now f.lines f.stem dname f.mtime) ::
            (changedLoop pt now rest
              (insertT table (dname, f.stem) f.mtime)).1,
            (changedLoop pt now rest
              (insertT table (dname, f.stem) f.mtime)).2) := by
        simp [changedLoop, hl]
      rw [hstep]
      by_cases hk : k = (dname, f.stem)
      · rw [hk] at h
        rw [hl] at h
        exact absurd h (by simp)
      · have h2 : lookupT (insertT table (dname, f.stem) f.mtime) k =
            some v := by
          rw [lookupT_insertT_ne table (dname, f.stem) k f.mtime hk]
          exact h
        exact ih _ k v h2
    | some t =>
      by_cases hgt : f.mtime > t
      · have hstep : changedLoop pt now ((dname, f) :: rest) table =
            ((parse_session_file pt now f.lines f.stem dname f.mtime) ::
              (changedLoop pt now rest
                (insertT table (dname, f.stem) f.mtime)).1,
              (changedLoop pt now rest
                (insertT table (dname, f.stem) f.mtime)).2) := by
          simp [changedLoop, hl, hgt]
        rw [hstep]
        by_cases hk : k = (dname, f.stem)
        · have h2 : lookupT (insertT table (dname, f.stem) f.mtime) k =
              some f.mtime := by
            rw [hk]
            exact lookupT_insertT_self table (dname, f.stem) f.mtime
          obtain ⟨v2, hv2, hle⟩ := ih _ k f.mtime h2
          refine ⟨v2, hv2, ?_⟩
          rw [hk, hl] at h
          have hv : v = t := Option.some.inj h.symm
          omega
        · have h2 : lookupT (insertT table (dname, f.stem) f.mtime) k =
              some v := by
            rw [lookupT_insertT_ne table (dname, f.stem) k f.mtime hk]
            exact h
          exact ih _ k v h2
      · have hstep : changedLoop pt now ((dname, f) :: rest) table =
            changedLoop pt now rest table := by
          simp [changedLoop, hl, hgt]
        rw [hstep]
        exact ih table k v h

theorem changedLoop_covers (pt : String → Option Nat) (now : Nat) :
    ∀ (files : List (String × FileEntry)) (table : List (FileKey × Nat))
      (df : String × FileEntry), df ∈ files →
      ∃ v, lookupT (changedLoop pt now files table).2 (df.1, df.2.stem) =
        some v ∧ df.2.mtime ≤ v := by
  intro files
  induction files with
  | nil => intro table df h; exact absurd h (by simp)
  | cons hd rest ih =>
    intro table df hmem
    obtain ⟨dname, f⟩ := hd
    rcases List.mem_cons.mp hmem with hdf | hdf
    · subst hdf
      cases hl : lookupT table (dname, f.stem) with
      | none =>
        have hstep : (changedLoop pt now ((dname, f) :: rest) table).2 =
            (changedLoop pt now rest
              (insertT table (dname, f.stem) f.mtime)).2 := by
          simp [changedLoop, hl]
        rw [hstep]
        exact changedLoop_mono pt now rest _ _ f.mtime
          (lookupT_insertT_self table (dname, f.stem) f.mtime)
      | some t =>
        by_cases hgt : f.mtime > t
        · have hstep : (changedLoop pt now ((dname, f) :: rest) table).2 =
              (changedLoop pt now rest
                (insertT table (dname, f.stem) f.mtime)).2 := by
            simp [changedLoop, hl, hgt]
          rw [hstep]
          exact changedLoop_mono pt now rest _ _ f.mtime
            (lookupT_insertT_self table (dname, f.stem) f.mtime)
        · have hstep : (changedLoop pt now ((dname, f) :: rest) table).2 =
              (changedLoop pt now rest table).2 := by
            simp [changedLoop, hl, hgt]
          rw [hstep]
          obtain ⟨v2, hv2, hle⟩ :=
            changedLoop_mono pt now rest table _ t hl
          refine ⟨v2, hv2, ?_⟩
          show f.mtime ≤ v2
          omega
    · cases hl : lookupT table (dname, f.stem) with
      | none =>
        have hstep : (changedLoop pt now ((dname, f) :: rest) table).2 =
            (changedLoop pt now rest
              (insertT table (dname, f.stem) f.mtime)).2 := by
          simp [changedLoop, hl]
        rw [hstep]
        exact ih _ df hdf
      | some t =>
        by_cases hgt : f.mtime > t
        · have hstep : (changedLoop pt now ((dname, f) :: rest) table).2 =
              (changedLoop pt now rest
                (insertT table (dname, f.stem) f.mtime)).2 := by
            simp [changedLoop, hl, hgt]
          rw [hstep]
          exact ih _ df hdf
        · have hstep : (changedLoop pt now ((dname, f) :: rest) table).2 =
              (changedLoop pt now rest table).2 := by
            simp [changedLoop, hl, hgt]
          rw [hstep]
          exact ih _ df hdf

theorem changedLoop_skip (pt : String → Option Nat) (now : Nat) :
    ∀ (files : List (String × FileEntry)) (table : List (FileKey × Nat)),
      (∀ df, df ∈ files →
        ∃ v, lookupT table (df.1, df.2.stem) = some v ∧ df.2.mtime ≤ v) →
      changedLoop pt now files table = ([], table) := by
  intro files
  induction files with
  | nil => intro table _; rfl
  | cons hd rest ih =>
    intro table h
    obtain ⟨dname, f⟩ := hd
    obtain ⟨v, hv, hle⟩ := h (dname, f) (List.mem_cons_self _ _)
    have hle2 : f.mtime ≤ v := hle
    have hgt : ¬ (f.mtime > v) := by omega
    have hstep : changedLoop pt now ((dname, f) :: rest) table =
        changedLoop pt now rest table := by
      simp [changedLoop, hv, hgt]
    rw [hstep]
    exact ih table (fun df hdf => h df (List.mem_cons_of_mem _ hdf))

theorem changedLoop_reported (pt : String → Option Nat) (now : Nat) :
    ∀ (files : List (String × FileEntry)) (table : List (FileKey × Nat))
      (s : ClaudeSessionL), s ∈ (changedLoop pt now files table).1 →
      ∃ df, df ∈ files ∧
        s = parse_session_file pt now df.2.lines df.2.stem df.1 df.2.mtime ∧
        (lookupT table (df.1, df.2.stem) = none ∨
          ∃ t, lookupT table (df.1, df.2.stem) = some t ∧
            t < df.2.mtime) := by
  intro files
  induction files with
  | nil => intro table s h; exact absurd h (by simp [changedLoop])
  | cons hd rest ih =>
    intro table s hmem
    obtain ⟨dname, f⟩ := hd
    cases hl : lookupT table (dname, f.stem) with
    | none =>
      have hstep : (changedLoop pt now ((dname, f) :: rest) table).1 =
          (parse_session_file pt now f.lines f.stem dname f.mtime) ::
            (changedLoop pt now rest
              (insertT table (dname, f.stem) f.mtime)).1 := by
        simp [changedLoop, hl]
      rw [hstep] at hmem
      rcases List.mem_cons.mp hmem with hs | hs
      · exact ⟨(dname, f), List.mem_cons_self _ _, hs, Or.inl hl⟩
      · obtain ⟨df, hdf, hseq, hcond⟩ := ih _ s hs
        refine ⟨df, List.mem_cons_of_mem _ hdf, hseq, ?_⟩
        by_cases hk : (df.1, df.2.stem) = ((dname, f.stem) : FileKey)
        · rcases hcond with hnone | ⟨t2, ht2, hlt⟩
          · rw [hk, lookupT_insertT_self] at hnone
            exact absurd hnone (by simp)
          · rw [hk, lookupT_insertT_self] at ht2
            have hteq : f.mtime = t2 := Option.some.inj ht2
            rw [hk]
            exact Or.inl hl
        · rw [lookupT_insertT_ne table _ _ f.mtime hk] at hcond
          exact hcond
    | some t =>
      by_cases hgt : f.mtime > t
      · have hstep : (changedLoop pt now ((dname, f) :: rest) table).1 =
            (parse_session_file pt now f.lines f.stem dname f.mtime) ::
              (changedLoop pt now rest
                (insertT table (dname, f.stem) f.mtime)).1 := by
          simp [changedLoop, hl, hgt]
        rw [hstep] at hmem
        rcases List.mem_cons.mp hmem with hs | hs
        · exact ⟨(dname, f), List.mem_cons_self _ _, hs,
            Or.inr ⟨t, hl, hgt⟩⟩
        · obtain ⟨df, hdf, hseq, hcond⟩ := ih _ s hs
          refine ⟨df, List.mem_cons_of_mem _ hdf, hseq, ?_⟩
          by_cases hk : (df.1, df.2.stem) = ((dname, f.stem) : FileKey)
          · rcases hcond with hnone | ⟨t2, ht2, hlt⟩
            · rw [hk, lookupT_insertT_self] at hnone
              exact absurd hnone (by simp)
            · rw [hk, lookupT_insertT_self] at ht2
              have hteq : f.mtime = t2 := Option.some.inj ht2
              rw [hk]
              refine Or.inr ⟨t, hl, ?_⟩
              omega
          · rw [lookupT_insertT_ne table _ _ f.mtime hk] at hcond
            exact hcond
      · have hstep : (changedLoop pt now ((dname, f) :: rest) table).1 =
            (changedLoop pt now rest table).1 := by
          simp [changedLoop, hl, hgt]
        rw [hstep] at hmem
        obtain ⟨df, hdf, hseq, hcond⟩ := ih _ s hmem
        exact ⟨df, List.mem_cons_of_mem _ hdf, hseq, hcond⟩

theorem changed_sessions_twice (pt : String → Option Nat) (now : Nat)
    (fs : ClaudeFS) (table : List (FileKey × Nat)) :
    (get_changed_sessions pt now fs
      (get_changed_sessions pt now fs table).2).1 = [] := by
  have hcov : ∀ df, df ∈ jsonlFiles fs →
      ∃ v, lookupT (get_changed_sessions pt now fs table).2
        (df.1, df.2.stem) = some v ∧ df.2.mtime ≤ v := by
    intro df hdf
    exact changedLoop_covers pt now (jsonlFiles fs) table df hdf
  show (sortByTsDesc (changedLoop pt now (jsonlFiles fs)
    (get_changed_sessions pt now fs table).2).1) = []
  rw [changedLoop_skip pt now (jsonlFiles fs) _ hcov]
  rfl

/-- C8: calling `get_changed_sessions` twice in succession over the same
filesystem returns the empty list the second time — the first call records
each `.jsonl` file's modification time — and every reported session comes
from a file whose current mtime is strictly newer than the stored value, or
for which no value was stored yet. -/
theorem changed_sessions_spec (pt : String → Option Nat) (now : Nat)
    (fs : ClaudeFS) (table : List (FileKey × Nat)) :
    (get_changed_sessions pt now fs
      (get_changed_sessions pt now fs table).2).1 = [] ∧
    (∀ s, s ∈ (get_changed_sessions pt now fs table).1 →
      ∃ df, df ∈ jsonlFiles fs ∧
        s = parse_session_file pt now df.2.lines df.2.stem df.1 df.2.mtime ∧
        (lookupT table (df.1, df.2.stem) = none ∨
          ∃ t, lookupT table (df.1, df.2.stem) = some t ∧
            t < df.2.mtime)) := by
  constructor
  · exact changed_sessions_twice pt now fs table
  · intro s hs
    have hs2 : s ∈ (changedLoop pt now (jsonlFiles fs) table).1 := by
      have := (mem_sortByTsDesc s
        (changedLoop pt now (jsonlFiles fs) table).1).mp hs
      exact this
    exact changedLoop_reported pt now (jsonlFiles fs) table s hs2

/-- C8 witness: starting from an empty timestamp table, the session of the
one `.jsonl` file is reported, with no stored value for its path. -/
theorem changed_sessions_spec_witness :
    ∃ df, df ∈ jsonlFiles fsDash ∧
      (⟨"sess", "-a-b", 0, 0, none, none, false, 0⟩ : ClaudeSessionL) =
        parse_session_file ptNone 0 df.2.lines df.2.stem df.1 df.2.mtime ∧
      (lookupT [] (df.1, df.2.stem) = none ∨
        ∃ t, lookupT [] (df.1, df.2.stem) = some t ∧ t < df.2.mtime) :=
  (changed_sessions_spec ptNone 0 fsDash []).2
    ⟨"sess", "-a-b", 0, 0, none, none, false, 0⟩ (by decide)
